import Mathlib

/-!
Shallow embedding of `oect_transfer/transfer.py`: a transfer-curve analyzer
for OECT measurements.  Numeric values are modelled by `ℚ` (exact rationals in
place of IEEE doubles); the logarithm in the Von computation is modelled over
`ℝ` with `Real.logb 10`.  The stabilized finite-difference routine
`Transfer.safe_diff`, the sweep splitting at the Vg argmax, the extremum
points and the Von pipeline are translated definition-for-definition from the
source.
-/

namespace OECT

/-- The stability threshold `1e-12` from the source, as an exact rational
(usable at any linear ordered field). -/
def eps {α : Type} [LinearOrderedField α] : α := 1 / 10 ^ 12

/-- The denominator clamp from `safe_diff`:
`dx = dx if abs(dx) > 1e-12 else 1e-12`. -/
def clampDx {α : Type} [LinearOrderedField α] (dx : α) : α :=
  if |dx| > eps then dx else eps

/-- Embedding of `Transfer.safe_diff(f, x)`: stabilized finite-difference derivative.
Mirrors the source: length-`< 2` input gives `np.zeros_like(f)`; index 0 the
forward difference, index `n-1` the backward difference (the source writes it
with negative indices `x[-1] - x[-2]`, i.e. `x[len(x)-1] - x[len(x)-2]`),
interior indices the average of backward and forward differences, each
denominator passed through the clamp. -/
def safe_diff {α : Type} [LinearOrderedField α] (f x : List α) : List α :=
  let n := f.length
  if n < 2 then List.replicate n 0
  else
    (List.range n).map fun i =>
      if i = 0 then
        (f.getD 1 0 - f.getD 0 0) / clampDx (x.getD 1 0 - x.getD 0 0)
      else if i = n - 1 then
        (f.getD (f.length - 1) 0 - f.getD (f.length - 2) 0) /
          clampDx (x.getD (x.length - 1) 0 - x.getD (x.length - 2) 0)
      else
        ((f.getD i 0 - f.getD (i - 1) 0) / clampDx (x.getD i 0 - x.getD (i - 1) 0)
          + (f.getD (i + 1) 0 - f.getD i 0) / clampDx (x.getD (i + 1) 0 - x.getD i 0)) / 2

/-- Embedding of `arr.max()` on a nonempty numpy array; `0` for the (unreachable in the
source) empty case. -/
def listMax {α : Type} [LinearOrderedField α] (l : List α) : α :=
  match l with
  | [] => 0
  | a :: t => t.foldl max a

/-- Embedding of `arr.min()` on a nonempty numpy array; `0` for the empty case. -/
def listMin {α : Type} [LinearOrderedField α] (l : List α) : α :=
  match l with
  | [] => 0
  | a :: t => t.foldl min a

/-- Embedding of `arr.argmax()`: the index of the first occurrence of the maximum value
(numpy returns the lowest index among maxima). -/
def argmax {α : Type} [LinearOrderedField α] (l : List α) : ℕ :=
  l.indexOf (listMax l)

/-- Embedding of `arr.argmin()`: the index of the first occurrence of the minimum value. -/
def argmin {α : Type} [LinearOrderedField α] (l : List α) : ℕ :=
  l.indexOf (listMin l)

/-- The three location tags stored in the `where` field of a `Point`. -/
inductive Loc
  | forward
  | turning_point
  | reverse
deriving DecidableEq

/-- The three-way classification `if idx < index ... elif idx == index ...
else ...` shared by `_compute_gm_max`, `_compute_I_max`, `_compute_I_min` and
`_compute_Von`. -/
def whereOf (i k : ℕ) : Loc :=
  if i < k then Loc.forward
  else if i = k then Loc.turning_point
  else Loc.reverse

/-- The `Sequence` dataclass: raw sweep plus forward and reverse legs. -/
structure Sequence where
  raw : List ℚ
  forward : List ℚ
  reverse : List ℚ

/-- The `Point` dataclass as used by `_compute_gm_max`, `_compute_I_max` and
`_compute_I_min` (all four fields always populated). -/
structure Point where
  raw : ℚ
  where_ : Loc
  forward : ℚ
  reverse : ℚ

/-- The `Point` dataclass as populated by `_compute_Von`: the forward and
reverse fields are `None` when the corresponding leg is empty, modelled by
`Option`. -/
structure VonPoint where
  raw : ℚ
  where_ : Loc
  forward : Option ℚ
  reverse : Option ℚ

/-- The fields of a fully constructed `Transfer` object. -/
structure TransferResult where
  Vg : Sequence
  I : Sequence
  gm : Sequence
  gm_max : Point
  I_max : Point
  I_min : Point
  Von : VonPoint

/-- Embedding of `np.log10(np.clip(abs(q), 1e-12, None))` for one sample: the magnitude is
floored at `1e-12` exactly (in ℚ) and the base-10 logarithm is taken in ℝ. -/
noncomputable def log_clip_abs (q : ℚ) : ℝ :=
  Real.logb 10 ((max |q| eps : ℚ) : ℝ)

/-- The index selected inside `_compute_Von` for one leg: `argmax` of the
log-slope for an N-type device (`device_type.upper() == "N"`), `argmin`
otherwise. -/
noncomputable def vonIdx (I Vg : List ℚ) (device_type : String) : ℕ :=
  let logId : List ℝ := I.map log_clip_abs
  let d := safe_diff logId (Vg.map fun q => (q : ℝ))
  if device_type.toUpper = "N" then argmax d else argmin d

/-- The body of `Transfer.__init__` after validation: split both sequences at
`max_idx = x.argmax()` (forward `x[:max_idx+1]`, reverse `x[max_idx:]`) and
compute the five derived quantities. -/
noncomputable def analyze (x y : List ℚ) (device_type : String) : TransferResult :=
  let max_idx := argmax x
  let Vg : Sequence := ⟨x, x.take (max_idx + 1), x.drop max_idx⟩
  let I : Sequence := ⟨y, y.take (max_idx + 1), y.drop max_idx⟩
  let gm : Sequence :=
    ⟨safe_diff I.raw Vg.raw, safe_diff I.forward Vg.forward, safe_diff I.reverse Vg.reverse⟩
  let gm_max : Point :=
    ⟨listMax gm.raw, whereOf (argmax gm.raw) max_idx, listMax gm.forward, listMax gm.reverse⟩
  let I_max : Point :=
    ⟨listMax (I.raw.map abs), whereOf (argmax (I.raw.map abs)) max_idx,
      listMax (I.forward.map abs), listMax (I.reverse.map abs)⟩
  let I_min : Point :=
    ⟨listMin (I.raw.map abs), whereOf (argmin (I.raw.map abs)) max_idx,
      listMin (I.forward.map abs), listMin (I.reverse.map abs)⟩
  let idx_raw := vonIdx I.raw Vg.raw device_type
  let Von : VonPoint :=
    ⟨Vg.raw.getD idx_raw 0, whereOf idx_raw max_idx,
      if Vg.forward.length > 0 then
        some (Vg.forward.getD (vonIdx I.forward Vg.forward device_type) 0)
      else none,
      if Vg.reverse.length > 0 then
        some (Vg.reverse.getD (vonIdx I.reverse Vg.reverse device_type) 0)
      else none⟩
  ⟨Vg, I, gm, gm_max, I_max, I_min, Von⟩

/-- A floating-point value as seen by the validation code: an ordinary finite
number, a NaN, or a (signed) infinity. -/
inductive FV
  | num (q : ℚ)
  | nan
  | inf
  | ninf
deriving DecidableEq

/-- Embedding of `np.isnan` on one element. -/
def FV.isnan : FV → Bool
  | FV.nan => true
  | _ => false

/-- Embedding of `np.isinf` on one element (true for both infinities, false for NaN). -/
def FV.isinf : FV → Bool
  | FV.inf => true
  | FV.ninf => true
  | _ => false

/-- The finite value carried by an element; validation ensures the non-`num`
cases are never reached by the numeric pipeline. -/
def FV.toQ : FV → ℚ
  | FV.num q => q
  | _ => 0

/-- A numpy array as far as the validation code observes it: its shape and
its flat data. -/
structure NDArr where
  shape : List ℕ
  data : List FV

/-- Embedding of `arr.ndim`. -/
def NDArr.ndim (a : NDArr) : ℕ := a.shape.length

/-- Embedding of `arr.size`. -/
def NDArr.size (a : NDArr) : ℕ := a.data.length

/-- A well-formed one-dimensional array holding the given samples. -/
def NDArr.mk1 (l : List FV) : NDArr := ⟨[l.length], l⟩

/-- The four caller-visible validation failures of `Transfer.__init__`
(`ShapeError` covers both the dimensionality and the length check, which the
source raises with two distinct messages under the same exception class). -/
inductive VErr
  | shapeError
  | emptyInputError
  | nanValueError
  | infiniteValueError
deriving DecidableEq

/-- Embedding of `Transfer.__init__`: the five validation checks in source order, each
failure surfacing immediately; on success the analysis runs on the data. -/
noncomputable def mkTransfer (x y : NDArr) (device_type : String) :
    Except VErr TransferResult :=
  if x.ndim ≠ 1 ∨ y.ndim ≠ 1 then Except.error VErr.shapeError
  else if x.shape.getD 0 0 ≠ y.shape.getD 0 0 then Except.error VErr.shapeError
  else if x.size = 0 ∨ y.size = 0 then Except.error VErr.emptyInputError
  else if x.data.any FV.isnan ∨ y.data.any FV.isnan then Except.error VErr.nanValueError
  else if x.data.any FV.isinf ∨ y.data.any FV.isinf then Except.error VErr.infiniteValueError
  else Except.ok (analyze (x.data.map FV.toQ) (y.data.map FV.toQ) device_type)

/-! ### Basic lemmas about the embedded operations -/

theorem eps_pos {α : Type} [LinearOrderedField α] : (0 : α) < eps := by
  unfold eps; positivity

theorem getD_map_range {α : Type} [LinearOrderedField α] (g : ℕ → α) {n i : ℕ} (h : i < n) :
    ((List.range n).map g).getD i 0 = g i := by
  simp [List.getD_eq_getElem?_getD, List.getElem?_map, List.getElem?_range, h]

theorem safe_diff_length {α : Type} [LinearOrderedField α] (f x : List α) :
    (safe_diff f x).length = f.length := by
  unfold safe_diff
  by_cases h : f.length < 2 <;> simp [h]

theorem safe_diff_short {α : Type} [LinearOrderedField α] (f x : List α)
    (h : f.length < 2) : safe_diff f x = List.replicate f.length 0 := by
  unfold safe_diff
  simp [h]

theorem safe_diff_getD_first {α : Type} [LinearOrderedField α] (f x : List α)
    (h2 : 2 ≤ f.length) :
    (safe_diff f x).getD 0 0 =
      (f.getD 1 0 - f.getD 0 0) / clampDx (x.getD 1 0 - x.getD 0 0) := by
  unfold safe_diff
  rw [if_neg (by omega)]
  rw [getD_map_range _ (by omega)]
  simp

theorem safe_diff_getD_last {α : Type} [LinearOrderedField α] (f x : List α)
    (h2 : 2 ≤ f.length) :
    (safe_diff f x).getD (f.length - 1) 0 =
      (f.getD (f.length - 1) 0 - f.getD (f.length - 2) 0) /
        clampDx (x.getD (x.length - 1) 0 - x.getD (x.length - 2) 0) := by
  unfold safe_diff
  rw [if_neg (by omega)]
  rw [getD_map_range _ (by omega)]
  rw [if_neg (by omega), if_pos rfl]

theorem safe_diff_getD_interior {α : Type} [LinearOrderedField α] (f x : List α)
    {i : ℕ} (h0 : 0 < i) (hi : i < f.length - 1) :
    (safe_diff f x).getD i 0 =
      ((f.getD i 0 - f.getD (i - 1) 0) / clampDx (x.getD i 0 - x.getD (i - 1) 0)
        + (f.getD (i + 1) 0 - f.getD i 0) / clampDx (x.getD (i + 1) 0 - x.getD i 0)) / 2 := by
  unfold safe_diff
  rw [if_neg (by omega)]
  rw [getD_map_range _ (by omega)]
  rw [if_neg (by omega), if_neg (by omega)]

theorem foldl_max_mem {α : Type} [LinearOrderedField α] :
    ∀ (t : List α) (a : α), t.foldl max a ∈ a :: t := by
  intro t
  induction t with
  | nil => intro a; simp
  | cons b t ih =>
    intro a
    have h := ih (max a b)
    rcases List.mem_cons.mp h with h | h
    · rw [List.foldl_cons, h]
      rcases max_choice a b with hm | hm <;> rw [hm] <;> simp
    · simp [List.mem_cons, h]

theorem le_foldl_max {α : Type} [LinearOrderedField α] :
    ∀ (t : List α) (a b : α), b ∈ a :: t → b ≤ t.foldl max a := by
  intro t
  induction t with
  | nil => intro a b h; simp at h; simp [h]
  | cons c t ih =>
    intro a b h
    rw [List.foldl_cons]
    rcases List.mem_cons.mp h with h | h
    · exact le_trans (h ▸ le_max_left a c) (ih _ _ (List.mem_cons_self _ _))
    · rcases List.mem_cons.mp h with h | h
      · exact le_trans (h ▸ le_max_right a c) (ih _ _ (List.mem_cons_self _ _))
      · exact ih _ _ (List.mem_cons_of_mem _ h)

theorem listMax_mem {α : Type} [LinearOrderedField α] {l : List α} (h : l ≠ []) :
    listMax l ∈ l := by
  match l with
  | a :: t => exact foldl_max_mem t a

theorem le_listMax {α : Type} [LinearOrderedField α] {l : List α} {a : α} (h : a ∈ l) :
    a ≤ listMax l := by
  match l with
  | b :: t => exact le_foldl_max t b a h

theorem foldl_min_mem {α : Type} [LinearOrderedField α] :
    ∀ (t : List α) (a : α), t.foldl min a ∈ a :: t := by
  intro t
  induction t with
  | nil => intro a; simp
  | cons b t ih =>
    intro a
    have h := ih (min a b)
    rcases List.mem_cons.mp h with h | h
    · rw [List.foldl_cons, h]
      rcases min_choice a b with hm | hm <;> rw [hm] <;> simp
    · simp [List.mem_cons, h]

theorem foldl_min_le {α : Type} [LinearOrderedField α] :
    ∀ (t : List α) (a b : α), b ∈ a :: t → t.foldl min a ≤ b := by
  intro t
  induction t with
  | nil => intro a b h; simp at h; simp [h]
  | cons c t ih =>
    intro a b h
    rw [List.foldl_cons]
    rcases List.mem_cons.mp h with h | h
    · exact le_trans (ih _ _ (List.mem_cons_self _ _)) (h ▸ min_le_left a c)
    · rcases List.mem_cons.mp h with h | h
      · exact le_trans (ih _ _ (List.mem_cons_self _ _)) (h ▸ min_le_right a c)
      · exact ih _ _ (List.mem_cons_of_mem _ h)

theorem listMin_mem {α : Type} [LinearOrderedField α] {l : List α} (h : l ≠ []) :
    listMin l ∈ l := by
  match l with
  | a :: t => exact foldl_min_mem t a

theorem listMin_le {α : Type} [LinearOrderedField α] {l : List α} {a : α} (h : a ∈ l) :
    listMin l ≤ a := by
  match l with
  | b :: t => exact foldl_min_le t b a h

theorem argmax_lt_length {α : Type} [LinearOrderedField α] {l : List α} (h : l ≠ []) :
    argmax l < l.length :=
  List.indexOf_lt_length.mpr (listMax_mem h)

theorem argmin_lt_length {α : Type} [LinearOrderedField α] {l : List α} (h : l ≠ []) :
    argmin l < l.length :=
  List.indexOf_lt_length.mpr (listMin_mem h)

theorem getD_argmax {α : Type} [LinearOrderedField α] {l : List α} (h : l ≠ []) :
    l.getD (argmax l) 0 = listMax l := by
  have hlt : argmax l < l.length := argmax_lt_length h
  rw [List.getD_eq_getElem _ _ hlt]
  exact List.getElem_indexOf hlt

theorem getD_lt_indexOf_ne {α : Type} [DecidableEq α] :
    ∀ (l : List α) (a : α) (j : ℕ) (d : α), j < l.indexOf a → l.getD j d ≠ a := by
  intro l
  induction l with
  | nil => intro a j d h; simp [List.indexOf] at h
  | cons b t ih =>
    intro a j d h
    by_cases hb : b = a
    · rw [List.indexOf_cons_eq t hb] at h; omega
    · rw [List.indexOf_cons_ne t hb] at h
      match j with
      | 0 => simpa using hb
      | j + 1 =>
        rw [List.getD_cons_succ]
        exact ih a j d (by omega)

theorem getD_lt_argmax {α : Type} [LinearOrderedField α] {l : List α} {j : ℕ}
    (h : j < argmax l) : l.getD j 0 < listMax l := by
  have hne : l ≠ [] := by
    intro he
    rw [he] at h
    simp [argmax, List.indexOf] at h
  have hj : l.getD j 0 ∈ l := by
    have hlen : j < l.length := lt_of_lt_of_le h (le_of_lt (argmax_lt_length hne))
    rw [List.getD_eq_getElem _ _ hlen]
    exact List.getElem_mem hlen
  exact lt_of_le_of_ne (le_listMax hj) (getD_lt_indexOf_ne l (listMax l) j 0 h)

theorem listMax_const {α : Type} [LinearOrderedField α] {l : List α} {c : α}
    (hne : l ≠ []) (h : ∀ a ∈ l, a = c) : listMax l = c :=
  h _ (listMax_mem hne)

theorem listMin_const {α : Type} [LinearOrderedField α] {l : List α} {c : α}
    (hne : l ≠ []) (h : ∀ a ∈ l, a = c) : listMin l = c :=
  h _ (listMin_mem hne)

theorem argmax_const {α : Type} [LinearOrderedField α] {l : List α} {c : α}
    (h : ∀ a ∈ l, a = c) : argmax l = 0 := by
  match l with
  | [] => simp [argmax, List.indexOf]
  | b :: t =>
    have hb : b = c := h b (List.mem_cons_self _ _)
    have hm : listMax (b :: t) = c := listMax_const (by simp) h
    unfold argmax
    rw [hm, hb]
    exact List.indexOf_cons_self c t

theorem argmin_const {α : Type} [LinearOrderedField α] {l : List α} {c : α}
    (h : ∀ a ∈ l, a = c) : argmin l = 0 := by
  match l with
  | [] => simp [argmin, List.indexOf]
  | b :: t =>
    have hb : b = c := h b (List.mem_cons_self _ _)
    have hm : listMin (b :: t) = c := listMin_const (by simp) h
    unfold argmin
    rw [hm, hb]
    exact List.indexOf_cons_self c t

/-- On a constant signal the stabilized derivative vanishes everywhere: every
numerator `f[j] - f[j-1]` is zero, whatever the denominators are. -/
theorem safe_diff_const {α : Type} [LinearOrderedField α] (f x : List α) (c : α)
    (h : ∀ a ∈ f, a = c) : safe_diff f x = List.replicate f.length 0 := by
  have hD : ∀ j, j < f.length → f.getD j 0 = c := by
    intro j hj
    rw [List.getD_eq_getElem _ _ hj]
    exact h _ (List.getElem_mem hj)
  by_cases hlen : f.length < 2
  · exact safe_diff_short f x hlen
  · apply List.ext_getElem
    · simp [safe_diff_length]
    · intro i h1 h2
      have hi : i < f.length := by
        have := safe_diff_length f x
        omega
      rw [List.getElem_replicate]
      rw [← List.getD_eq_getElem (safe_diff f x) 0 h1]
      rcases Nat.eq_zero_or_pos i with h0 | h0
      · subst h0
        rw [safe_diff_getD_first f x (by omega)]
        rw [hD 1 (by omega), hD 0 (by omega), sub_self, zero_div]
      · by_cases hlast : i = f.length - 1
        · subst hlast
          rw [safe_diff_getD_last f x (by omega)]
          rw [hD _ (by omega), hD _ (by omega), sub_self, zero_div]
        · rw [safe_diff_getD_interior f x h0 (by omega)]
          rw [hD i hi, hD (i - 1) (by omega), hD (i + 1) (by omega)]
          simp

/-- The clamp leaves a denominator unchanged exactly when its absolute value
strictly exceeds the threshold. -/
theorem clampDx_of_gt {α : Type} [LinearOrderedField α] {dx : α} (h : eps < |dx|) :
    clampDx dx = dx := by
  simp [clampDx, h]

/-- The clamp replaces a denominator whose absolute value is at most the
threshold by the positive constant `eps`. -/
theorem clampDx_of_le {α : Type} [LinearOrderedField α] {dx : α} (h : |dx| ≤ eps) :
    clampDx dx = eps := by
  simp [clampDx, not_lt.mpr h]

/-- The three-way location rule, written out. -/
theorem whereOf_lt {i k : ℕ} (h : i < k) : whereOf i k = Loc.forward := by
  simp [whereOf, h]

theorem whereOf_eq {i k : ℕ} (h : i = k) : whereOf i k = Loc.turning_point := by
  subst h
  simp [whereOf]

theorem whereOf_gt {i k : ℕ} (h : k < i) : whereOf i k = Loc.reverse := by
  have h1 : ¬ i < k := by omega
  have h2 : ¬ i = k := by omega
  simp [whereOf, h1, h2]

/-! ### Claims -/

/-- C1: for equal-length `f`, `x` with `len(f) ≥ 2`, `safe_diff` returns a
sequence of the same length whose index 0 is the forward difference
`(f[1]-f[0])/dx` with `dx = x[1]-x[0]`, whose last index is the backward
difference `(f[-1]-f[-2])/dx` with `dx = x[-1]-x[-2]`, and whose interior
index `i` is the average of the backward difference `(f[i]-f[i-1])/dx1` and
the forward difference `(f[i+1]-f[i])/dx2`, each denominator passed through
the stability clamp. -/
theorem C1_safe_diff_pointwise (f x : List ℚ) (hlen : f.length = x.length)
    (h2 : 2 ≤ f.length) :
    (safe_diff f x).length = f.length ∧
    (safe_diff f x).getD 0 0 =
      (f.getD 1 0 - f.getD 0 0) / clampDx (x.getD 1 0 - x.getD 0 0) ∧
    (safe_diff f x).getD (f.length - 1) 0 =
      (f.getD (f.length - 1) 0 - f.getD (f.length - 2) 0) /
        clampDx (x.getD (x.length - 1) 0 - x.getD (x.length - 2) 0) ∧
    ∀ i, 0 < i → i < f.length - 1 →
      (safe_diff f x).getD i 0 =
        ((f.getD i 0 - f.getD (i - 1) 0) / clampDx (x.getD i 0 - x.getD (i - 1) 0)
          + (f.getD (i + 1) 0 - f.getD i 0) / clampDx (x.getD (i + 1) 0 - x.getD i 0)) / 2 :=
  ⟨safe_diff_length f x, safe_diff_getD_first f x h2, safe_diff_getD_last f x h2,
    fun _ h0 hi => safe_diff_getD_interior f x h0 hi⟩

/-- C1 witness: `f = [0,1,4]`, `x = [0,1,2]`; the interior sample is the
average of backward slope 1 and forward slope 3. -/
theorem C1_safe_diff_pointwise_witness :
    ([(0 : ℚ), 1, 4] : List ℚ).length = ([(0 : ℚ), 1, 2] : List ℚ).length ∧
    2 ≤ ([(0 : ℚ), 1, 4] : List ℚ).length ∧
    (safe_diff ([(0 : ℚ), 1, 4]) ([(0 : ℚ), 1, 2])).getD 1 0 =
      ((([(0 : ℚ), 1, 4]).getD 1 0 - ([(0 : ℚ), 1, 4]).getD 0 0) /
          clampDx (([(0 : ℚ), 1, 2]).getD 1 0 - ([(0 : ℚ), 1, 2]).getD 0 0)
        + (([(0 : ℚ), 1, 4]).getD 2 0 - ([(0 : ℚ), 1, 4]).getD 1 0) /
          clampDx (([(0 : ℚ), 1, 2]).getD 2 0 - ([(0 : ℚ), 1, 2]).getD 1 0)) / 2 :=
  ⟨by decide, by decide,
    (C1_safe_diff_pointwise [0, 1, 4] [0, 1, 2] (by decide) (by decide)).2.2.2 1
      (by decide) (by decide)⟩

/-- C2 counterexample: the denominator `-1e-12` has absolute value NOT below
`1e-12`, yet the routine does not use it unchanged: the clamp replaces it by
`+1e-12`, so `safe_diff` on `f = [0,1]`, `x = [0,-1e-12]` returns `+1e12` at
both samples instead of the `-1e12` that the unchanged denominator would
give. -/
theorem C2_clamp_counterexample :
    ¬ |(-(eps : ℚ))| < eps ∧
    clampDx (-(eps : ℚ)) ≠ -(eps : ℚ) ∧
    (safe_diff ([(0 : ℚ), 1]) ([(0 : ℚ), -eps])).getD 0 0 = 10 ^ 12 ∧
    ((1 : ℚ) - 0) / (-(eps : ℚ) - 0) = -10 ^ 12 := by
  have habs : |(-(eps : ℚ))| = eps := by rw [abs_neg, abs_of_pos eps_pos]
  have hc : clampDx (-(eps : ℚ)) = eps := by
    rw [clampDx, habs]
    simp
  refine ⟨by rw [habs]; exact lt_irrefl eps, ?_, ?_, by norm_num [eps]⟩
  · rw [hc]
    have h0 : (0 : ℚ) < eps := eps_pos
    intro hcon
    linarith
  · rw [safe_diff_getD_first _ _ (by decide)]
    simp only [List.getD_cons_succ, List.getD_cons_zero]
    rw [show (-(eps : ℚ) - 0) = -eps by ring, hc]
    norm_num [eps]

/-- C2 amended: in the derivative routine every denominator whose absolute
value is less than OR EQUAL TO `1e-12` is replaced by the positive constant
`1e-12` (so a spacing of exactly `-1e-12` also becomes `+1e-12`), and every
denominator whose absolute value strictly exceeds `1e-12` is used
unchanged. -/
theorem C2_clamp_amended (dx : ℚ) :
    (|dx| ≤ eps → clampDx dx = eps) ∧ (eps < |dx| → clampDx dx = dx) :=
  ⟨clampDx_of_le, clampDx_of_gt⟩

/-- C2 amended witness: `-1e-12` is clamped to `+1e-12`; `2` is used
unchanged. -/
theorem C2_clamp_amended_witness :
    clampDx (-(eps : ℚ)) = eps ∧ clampDx (2 : ℚ) = 2 :=
  ⟨(C2_clamp_amended (-eps)).1 (by rw [abs_neg, abs_of_pos eps_pos]),
    (C2_clamp_amended 2).2 (by norm_num [eps])⟩

/-- C7: `safe_diff` always returns a sequence of the same length as `f`;
for `len(f) < 2` it returns the zero-filled sequence of that length; and
for valid inputs of length ≥ 2 the raw transconductance sequence has the
same length as the raw current sequence. -/
theorem C7_lengths (f x xs ys : List ℚ) (dt : String) (hfx : f.length = x.length)
    (hlen : ys.length = xs.length) (h2 : 2 ≤ xs.length) :
    (safe_diff f x).length = f.length ∧
    (f.length < 2 → safe_diff f x = List.replicate f.length 0) ∧
    (analyze xs ys dt).gm.raw.length = (analyze xs ys dt).I.raw.length := by
  refine ⟨safe_diff_length f x, safe_diff_short f x, ?_⟩
  show (safe_diff ys xs).length = ys.length
  exact safe_diff_length ys xs

/-- C7 witness: a length-1 input gives the zero sequence, and on the sweep
`Vg = [0,1,2]`, `I = [0,1,4]` the transconductance has length 3. -/
theorem C7_lengths_witness :
    (safe_diff ([(5 : ℚ)]) ([(7 : ℚ)])).length = 1 ∧
    safe_diff ([(5 : ℚ)]) ([(7 : ℚ)]) = List.replicate 1 0 ∧
    (analyze [(0 : ℚ), 1, 2] [(0 : ℚ), 1, 4] "N").gm.raw.length =
      (analyze [(0 : ℚ), 1, 2] [(0 : ℚ), 1, 4] "N").I.raw.length := by
  have h := C7_lengths [(5 : ℚ)] [(7 : ℚ)] [(0 : ℚ), 1, 2] [(0 : ℚ), 1, 4] "N"
    (by decide) (by decide) (by decide)
  exact ⟨h.1, h.2.1 (by decide), h.2.2⟩

/-- C8: on a perfectly linear signal `f = m*x + c` over samples whose
consecutive spacings all exceed the clamp threshold in absolute value, the
derivative routine returns `m` at every index. -/
theorem C8_safe_diff_linear (m c : ℚ) (x : List ℚ) (h2 : 2 ≤ x.length)
    (hsp : ∀ i, i < x.length - 1 → eps < |x.getD (i + 1) 0 - x.getD i 0|) :
    safe_diff (x.map fun v => m * v + c) x = List.replicate x.length m := by
  have key : ∀ u v : ℚ, v - u ≠ 0 → ((m * v + c) - (m * u + c)) / (v - u) = m := by
    intro u v huv
    field_simp
    ring
  have hflen : (x.map fun v => m * v + c).length = x.length := List.length_map x _
  have hfD : ∀ j, j < x.length → (x.map fun v => m * v + c).getD j 0 = m * x.getD j 0 + c := by
    intro j hj
    have hj' : j < (x.map fun v => m * v + c).length := by omega
    rw [List.getD_eq_getElem _ _ hj', List.getD_eq_getElem _ _ hj, List.getElem_map]
  set f := x.map fun v => m * v + c with hf
  have hslope : ∀ j, j < x.length - 1 →
      (f.getD (j + 1) 0 - f.getD j 0) / clampDx (x.getD (j + 1) 0 - x.getD j 0) = m := by
    intro j hj
    have hd := hsp j hj
    have hdne : x.getD (j + 1) 0 - x.getD j 0 ≠ 0 := by
      intro h0
      rw [h0] at hd
      simp at hd
      have := eps_pos (α := ℚ)
      linarith
    rw [hfD (j + 1) (by omega), hfD j (by omega)]
    rw [clampDx_of_gt hd]
    exact key _ _ hdne
  apply List.ext_getElem
  · simp [safe_diff_length, hflen]
  · intro i h1 h2'
    have hi : i < x.length := by
      have := safe_diff_length f x
      omega
    rw [List.getElem_replicate]
    rw [← List.getD_eq_getElem (safe_diff f x) 0 h1]
    rcases Nat.eq_zero_or_pos i with h0 | h0
    · subst h0
      rw [safe_diff_getD_first f x (by omega)]
      exact hslope 0 (by omega)
    · by_cases hlast : i = f.length - 1
      · subst hlast
        rw [safe_diff_getD_last f x (by omega)]
        have := hslope (x.length - 2) (by omega)
        rw [show x.length - 2 + 1 = x.length - 1 by omega] at this
        rw [hflen, ← this]
      · rw [safe_diff_getD_interior f x h0 (by omega)]
        have hb := hslope (i - 1) (by omega)
        rw [show i - 1 + 1 = i by omega] at hb
        have hfwd := hslope i (by omega)
        rw [hb, hfwd]
        norm_num

/-- C8 witness: `x = [0,1,3]`, `m = 2`, `c = 1`: the derivative is `2`
everywhere. -/
theorem C8_safe_diff_linear_witness :
    safe_diff (([(0 : ℚ), 1, 3]).map fun v => 2 * v + 1) ([(0 : ℚ), 1, 3]) =
      List.replicate ([(0 : ℚ), 1, 3]).length 2 :=
  C8_safe_diff_linear 2 1 [0, 1, 3] (by decide)
    (by
      intro i hi
      simp only [List.length_cons, List.length_nil] at hi
      interval_cases i <;> norm_num [eps])

/-- C3: for every validated input, with `k` the lowest index at which Vg
attains its maximum, the forward leg of each Sweep is `raw[0..k]` inclusive
and the reverse leg is `raw[k..end]` inclusive (the same `k` for Vg and I),
the two legs overlap at exactly the one sample at index `k`, and
`len(forward) + len(reverse) = len(raw) + 1`. -/
theorem C3_split_invariant (xs ys : List ℚ) (dt : String) (hne : xs ≠ [])
    (hlen : ys.length = xs.length) :
    argmax xs < xs.length ∧
    (∀ j, j < xs.length → xs.getD j 0 ≤ xs.getD (argmax xs) 0) ∧
    (∀ j, j < argmax xs → xs.getD j 0 < xs.getD (argmax xs) 0) ∧
    (analyze xs ys dt).Vg.forward = xs.take (argmax xs + 1) ∧
    (analyze xs ys dt).Vg.reverse = xs.drop (argmax xs) ∧
    (analyze xs ys dt).I.forward = ys.take (argmax xs + 1) ∧
    (analyze xs ys dt).I.reverse = ys.drop (argmax xs) ∧
    (analyze xs ys dt).Vg.forward.length + (analyze xs ys dt).Vg.reverse.length =
      (analyze xs ys dt).Vg.raw.length + 1 ∧
    (analyze xs ys dt).I.forward.length + (analyze xs ys dt).I.reverse.length =
      (analyze xs ys dt).I.raw.length + 1 ∧
    (analyze xs ys dt).Vg.forward.getLast? = some (xs.getD (argmax xs) 0) ∧
    (analyze xs ys dt).Vg.reverse.head? = some (xs.getD (argmax xs) 0) := by
  have hk : argmax xs < xs.length := argmax_lt_length hne
  have hmax : ∀ j, j < xs.length → xs.getD j 0 ≤ xs.getD (argmax xs) 0 := by
    intro j hj
    rw [getD_argmax hne]
    rw [List.getD_eq_getElem _ _ hj]
    exact le_listMax (List.getElem_mem hj)
  have hfirst : ∀ j, j < argmax xs → xs.getD j 0 < xs.getD (argmax xs) 0 := by
    intro j hj
    rw [getD_argmax hne]
    exact getD_lt_argmax hj
  refine ⟨hk, hmax, hfirst, rfl, rfl, rfl, rfl, ?_, ?_, ?_, ?_⟩
  · show (xs.take (argmax xs + 1)).length + (xs.drop (argmax xs)).length = xs.length + 1
    rw [List.length_take, List.length_drop]
    omega
  · show (ys.take (argmax xs + 1)).length + (ys.drop (argmax xs)).length = ys.length + 1
    rw [List.length_take, List.length_drop]
    omega
  · show (xs.take (argmax xs + 1)).getLast? = some (xs.getD (argmax xs) 0)
    rw [List.getLast?_eq_getElem?]
    simp [List.getElem?_take, List.length_take,
      Nat.min_eq_left (by omega : argmax xs + 1 ≤ xs.length)]
    simp [List.getElem?_eq_getElem hk, List.getD_eq_getElem xs 0 hk]
  · show (xs.drop (argmax xs)).head? = some (xs.getD (argmax xs) 0)
    rw [List.head?_eq_getElem?]
    simp [List.getElem?_drop]
    simp [List.getElem?_eq_getElem hk, List.getD_eq_getElem xs 0 hk]

/-- C3 witness: `Vg = [0,2,1]`, `I = [5,6,7]`: `k = 1`, forward `[0,2]`,
reverse `[2,1]`, overlap at the single sample `2`. -/
theorem C3_split_invariant_witness :
    (analyze [(0 : ℚ), 2, 1] [(5 : ℚ), 6, 7] "N").Vg.forward =
      ([(0 : ℚ), 2, 1]).take (argmax [(0 : ℚ), 2, 1] + 1) ∧
    (analyze [(0 : ℚ), 2, 1] [(5 : ℚ), 6, 7] "N").Vg.reverse =
      ([(0 : ℚ), 2, 1]).drop (argmax [(0 : ℚ), 2, 1]) ∧
    (analyze [(0 : ℚ), 2, 1] [(5 : ℚ), 6, 7] "N").Vg.forward.length +
      (analyze [(0 : ℚ), 2, 1] [(5 : ℚ), 6, 7] "N").Vg.reverse.length =
      (analyze [(0 : ℚ), 2, 1] [(5 : ℚ), 6, 7] "N").Vg.raw.length + 1 := by
  have h := C3_split_invariant [(0 : ℚ), 2, 1] [(5 : ℚ), 6, 7] "N" (by decide) (by decide)
  exact ⟨h.2.2.2.1, h.2.2.2.2.1, h.2.2.2.2.2.2.2.1⟩

/-- C5: every location tag is computed by comparing the raw extremum index
against the turning index `k`: strictly less gives `forward`, equal gives
`turning_point`, strictly greater gives `reverse`; when `k = 0` an extremum
at index 0 is tagged `turning_point`, any later index `reverse`, and
`forward` never occurs. -/
theorem C5_location_classification (xs ys : List ℚ) (dt : String) (i k : ℕ) :
    ((analyze xs ys dt).gm_max.where_ = whereOf (argmax (safe_diff ys xs)) (argmax xs) ∧
     (analyze xs ys dt).I_max.where_ = whereOf (argmax (ys.map abs)) (argmax xs) ∧
     (analyze xs ys dt).I_min.where_ = whereOf (argmin (ys.map abs)) (argmax xs) ∧
     (analyze xs ys dt).Von.where_ = whereOf (vonIdx ys xs dt) (argmax xs)) ∧
    (i < k → whereOf i k = Loc.forward) ∧
    (i = k → whereOf i k = Loc.turning_point) ∧
    (k < i → whereOf i k = Loc.reverse) ∧
    whereOf 0 0 = Loc.turning_point ∧
    (0 < i → whereOf i 0 = Loc.reverse) ∧
    whereOf i 0 ≠ Loc.forward := by
  refine ⟨⟨rfl, rfl, rfl, rfl⟩, whereOf_lt, whereOf_eq, whereOf_gt,
    whereOf_eq rfl, fun h => whereOf_gt h, ?_⟩
  rcases Nat.eq_zero_or_pos i with h | h
  · rw [whereOf_eq h]
    simp
  · rw [whereOf_gt h]
    simp

/-- C5 witness: concrete classifications at `k = 2` and at `k = 0`. -/
theorem C5_location_classification_witness :
    whereOf 1 2 = Loc.forward ∧ whereOf 2 2 = Loc.turning_point ∧
    whereOf 3 2 = Loc.reverse ∧ whereOf 4 0 = Loc.reverse := by
  have h := C5_location_classification [(0 : ℚ)] [(0 : ℚ)] "N"
  exact ⟨(h 1 2).2.1 (by decide), (h 2 2).2.2.1 (by decide),
    (h 3 2).2.2.2.1 (by decide), (h 4 0).2.2.2.2.2.1 (by decide)⟩

/-- C10: for every validated input the forward and reverse legs each contain
at least one sample (both include the turning sample `raw[k]`), so the
forward and reverse Von fields are always populated and the `None` branch
for a zero-length leg is unreachable. -/
theorem C10_legs_nonempty (xs ys : List ℚ) (dt : String) (hne : xs ≠ [])
    (hlen : ys.length = xs.length) :
    (analyze xs ys dt).Vg.forward ≠ [] ∧
    (analyze xs ys dt).Vg.reverse ≠ [] ∧
    (analyze xs ys dt).I.forward ≠ [] ∧
    (analyze xs ys dt).I.reverse ≠ [] ∧
    (analyze xs ys dt).Vg.forward.getLast? = some (xs.getD (argmax xs) 0) ∧
    (analyze xs ys dt).Vg.reverse.head? = some (xs.getD (argmax xs) 0) ∧
    ((analyze xs ys dt).Von.forward).isSome = true ∧
    ((analyze xs ys dt).Von.reverse).isSome = true := by
  have hk : argmax xs < xs.length := argmax_lt_length hne
  have hfor : (xs.take (argmax xs + 1)).length = argmax xs + 1 := by
    rw [List.length_take]
    omega
  have hrev : (xs.drop (argmax xs)).length = xs.length - argmax xs := List.length_drop _ _
  refine ⟨?_, ?_, ?_, ?_, ?_, ?_, ?_, ?_⟩
  · show xs.take (argmax xs + 1) ≠ []
    intro h
    rw [h] at hfor
    simp at hfor
  · show xs.drop (argmax xs) ≠ []
    intro h
    have := congrArg List.length h
    rw [List.length_drop] at this
    simp at this
    omega
  · show ys.take (argmax xs + 1) ≠ []
    intro h
    have := congrArg List.length h
    rw [List.length_take] at this
    simp only [List.length_nil] at this
    omega
  · show ys.drop (argmax xs) ≠ []
    intro h
    have := congrArg List.length h
    rw [List.length_drop] at this
    simp at this
    omega
  · show (xs.take (argmax xs + 1)).getLast? = some (xs.getD (argmax xs) 0)
    rw [List.getLast?_eq_getElem?]
    simp [List.getElem?_take, List.length_take,
      Nat.min_eq_left (by omega : argmax xs + 1 ≤ xs.length)]
    simp [List.getElem?_eq_getElem hk, List.getD_eq_getElem xs 0 hk]
  · show (xs.drop (argmax xs)).head? = some (xs.getD (argmax xs) 0)
    rw [List.head?_eq_getElem?]
    simp [List.getElem?_drop]
    simp [List.getElem?_eq_getElem hk, List.getD_eq_getElem xs 0 hk]
  · show (if (xs.take (argmax xs + 1)).length > 0 then
        some ((xs.take (argmax xs + 1)).getD
          (vonIdx (ys.take (argmax xs + 1)) (xs.take (argmax xs + 1)) dt) 0)
      else none).isSome = true
    rw [if_pos (by rw [hfor]; omega)]
    rfl
  · show (if (xs.drop (argmax xs)).length > 0 then
        some ((xs.drop (argmax xs)).getD
          (vonIdx (ys.drop (argmax xs)) (xs.drop (argmax xs)) dt) 0)
      else none).isSome = true
    rw [if_pos (by rw [hrev]; omega)]
    rfl

/-- C10 witness: on `Vg = [0,2,1]`, `I = [5,6,7]` both legs are nonempty and
both leg Von fields are populated. -/
theorem C10_legs_nonempty_witness :
    (analyze [(0 : ℚ), 2, 1] [(5 : ℚ), 6, 7] "N").Vg.forward ≠ [] ∧
    (analyze [(0 : ℚ), 2, 1] [(5 : ℚ), 6, 7] "N").Vg.reverse ≠ [] ∧
    ((analyze [(0 : ℚ), 2, 1] [(5 : ℚ), 6, 7] "N").Von.forward).isSome = true ∧
    ((analyze [(0 : ℚ), 2, 1] [(5 : ℚ), 6, 7] "N").Von.reverse).isSome = true := by
  have h := C10_legs_nonempty [(0 : ℚ), 2, 1] [(5 : ℚ), 6, 7] "N" (by decide) (by decide)
  exact ⟨h.1, h.2.1, h.2.2.2.2.2.2.1, h.2.2.2.2.2.2.2⟩

/-- C9: the forward and reverse scalar fields of each extremum point are
computed independently as the extremum over that leg's own sub-sequence: the
leg's transconductance maximum for peak gm, the leg's `|I|` maximum and
minimum for the current extrema.  Each leg field equals the stated extremum
of the leg's own list, is attained in that list, and bounds it. -/
theorem C9_leg_extrema (xs ys : List ℚ) (dt : String) (hne : xs ≠ [])
    (hlen : ys.length = xs.length) :
    ((analyze xs ys dt).gm_max.forward =
        listMax (safe_diff (ys.take (argmax xs + 1)) (xs.take (argmax xs + 1))) ∧
      (analyze xs ys dt).gm_max.reverse =
        listMax (safe_diff (ys.drop (argmax xs)) (xs.drop (argmax xs))) ∧
      (analyze xs ys dt).I_max.forward = listMax ((ys.take (argmax xs + 1)).map abs) ∧
      (analyze xs ys dt).I_max.reverse = listMax ((ys.drop (argmax xs)).map abs) ∧
      (analyze xs ys dt).I_min.forward = listMin ((ys.take (argmax xs + 1)).map abs) ∧
      (analyze xs ys dt).I_min.reverse = listMin ((ys.drop (argmax xs)).map abs)) ∧
    ((analyze xs ys dt).gm_max.forward ∈ (analyze xs ys dt).gm.forward ∧
      (∀ v ∈ (analyze xs ys dt).gm.forward, v ≤ (analyze xs ys dt).gm_max.forward)) ∧
    ((analyze xs ys dt).gm_max.reverse ∈ (analyze xs ys dt).gm.reverse ∧
      (∀ v ∈ (analyze xs ys dt).gm.reverse, v ≤ (analyze xs ys dt).gm_max.reverse)) ∧
    ((analyze xs ys dt).I_max.forward ∈ (analyze xs ys dt).I.forward.map abs ∧
      (∀ v ∈ (analyze xs ys dt).I.forward.map abs, v ≤ (analyze xs ys dt).I_max.forward)) ∧
    ((analyze xs ys dt).I_min.forward ∈ (analyze xs ys dt).I.forward.map abs ∧
      (∀ v ∈ (analyze xs ys dt).I.forward.map abs, (analyze xs ys dt).I_min.forward ≤ v)) ∧
    ((analyze xs ys dt).I_max.reverse ∈ (analyze xs ys dt).I.reverse.map abs ∧
      (∀ v ∈ (analyze xs ys dt).I.reverse.map abs, v ≤ (analyze xs ys dt).I_max.reverse)) ∧
    ((analyze xs ys dt).I_min.reverse ∈ (analyze xs ys dt).I.reverse.map abs ∧
      (∀ v ∈ (analyze xs ys dt).I.reverse.map abs, (analyze xs ys dt).I_min.reverse ≤ v)) := by
  have hk : argmax xs < xs.length := argmax_lt_length hne
  have hygt : ys.take (argmax xs + 1) ≠ [] := by
    intro h
    have := congrArg List.length h
    rw [List.length_take] at this
    simp only [List.length_nil] at this
    omega
  have hygd : ys.drop (argmax xs) ≠ [] := by
    intro h
    have := congrArg List.length h
    rw [List.length_drop] at this
    simp only [List.length_nil] at this
    omega
  have hgmf : safe_diff (ys.take (argmax xs + 1)) (xs.take (argmax xs + 1)) ≠ [] := by
    intro h
    have := congrArg List.length h
    rw [safe_diff_length, List.length_take] at this
    simp only [List.length_nil] at this
    omega
  have hgmr : safe_diff (ys.drop (argmax xs)) (xs.drop (argmax xs)) ≠ [] := by
    intro h
    have := congrArg List.length h
    rw [safe_diff_length, List.length_drop] at this
    simp only [List.length_nil] at this
    omega
  have habsf : (ys.take (argmax xs + 1)).map abs ≠ [] := by
    intro h
    exact hygt (List.map_eq_nil_iff.mp h)
  have habsr : (ys.drop (argmax xs)).map abs ≠ [] := by
    intro h
    exact hygd (List.map_eq_nil_iff.mp h)
  refine ⟨⟨rfl, rfl, rfl, rfl, rfl, rfl⟩, ?_, ?_, ?_, ?_, ?_, ?_⟩
  · exact ⟨listMax_mem hgmf, fun v hv => le_listMax hv⟩
  · exact ⟨listMax_mem hgmr, fun v hv => le_listMax hv⟩
  · exact ⟨listMax_mem habsf, fun v hv => le_listMax hv⟩
  · exact ⟨listMin_mem habsf, fun v hv => listMin_le hv⟩
  · exact ⟨listMax_mem habsr, fun v hv => le_listMax hv⟩
  · exact ⟨listMin_mem habsr, fun v hv => listMin_le hv⟩

/-- C9 witness: on `Vg = [0,2,1]`, `I = [5,6,7]` the forward peak
transconductance is the maximum of the forward leg's own derivative list. -/
theorem C9_leg_extrema_witness :
    (analyze [(0 : ℚ), 2, 1] [(5 : ℚ), 6, 7] "N").gm_max.forward =
      listMax (safe_diff (([(5 : ℚ), 6, 7]).take (argmax [(0 : ℚ), 2, 1] + 1))
        (([(0 : ℚ), 2, 1]).take (argmax [(0 : ℚ), 2, 1] + 1))) ∧
    (analyze [(0 : ℚ), 2, 1] [(5 : ℚ), 6, 7] "N").I_min.reverse =
      listMin ((([(5 : ℚ), 6, 7]).drop (argmax [(0 : ℚ), 2, 1])).map abs) := by
  have h := C9_leg_extrema [(0 : ℚ), 2, 1] [(5 : ℚ), 6, 7] "N" (by decide) (by decide)
  exact ⟨h.1.1, h.1.2.2.2.2.2⟩

/-- C6: construction validates in source order — dimensionality, length
equality, non-emptiness, NaN-freedom, inf-freedom — each kind of violation
surfacing immediately as its own distinct error with no partial result, and
a fully valid input reaching the analysis. -/
theorem C6_validation_order (x y : NDArr) (dt : String) :
    ((x.ndim ≠ 1 ∨ y.ndim ≠ 1) → mkTransfer x y dt = Except.error VErr.shapeError) ∧
    (x.ndim = 1 → y.ndim = 1 → x.shape.getD 0 0 ≠ y.shape.getD 0 0 →
      mkTransfer x y dt = Except.error VErr.shapeError) ∧
    (x.ndim = 1 → y.ndim = 1 → x.shape.getD 0 0 = y.shape.getD 0 0 →
      (x.size = 0 ∨ y.size = 0) →
      mkTransfer x y dt = Except.error VErr.emptyInputError) ∧
    (x.ndim = 1 → y.ndim = 1 → x.shape.getD 0 0 = y.shape.getD 0 0 →
      ¬(x.size = 0 ∨ y.size = 0) →
      (x.data.any FV.isnan ∨ y.data.any FV.isnan) →
      mkTransfer x y dt = Except.error VErr.nanValueError) ∧
    (x.ndim = 1 → y.ndim = 1 → x.shape.getD 0 0 = y.shape.getD 0 0 →
      ¬(x.size = 0 ∨ y.size = 0) →
      ¬(x.data.any FV.isnan ∨ y.data.any FV.isnan) →
      (x.data.any FV.isinf ∨ y.data.any FV.isinf) →
      mkTransfer x y dt = Except.error VErr.infiniteValueError) ∧
    (x.ndim = 1 → y.ndim = 1 → x.shape.getD 0 0 = y.shape.getD 0 0 →
      ¬(x.size = 0 ∨ y.size = 0) →
      ¬(x.data.any FV.isnan ∨ y.data.any FV.isnan) →
      ¬(x.data.any FV.isinf ∨ y.data.any FV.isinf) →
      mkTransfer x y dt =
        Except.ok (analyze (x.data.map FV.toQ) (y.data.map FV.toQ) dt)) ∧
    (VErr.shapeError ≠ VErr.emptyInputError ∧ VErr.shapeError ≠ VErr.nanValueError ∧
      VErr.shapeError ≠ VErr.infiniteValueError ∧
      VErr.emptyInputError ≠ VErr.nanValueError ∧
      VErr.emptyInputError ≠ VErr.infiniteValueError ∧
      VErr.nanValueError ≠ VErr.infiniteValueError) := by
  refine ⟨?_, ?_, ?_, ?_, ?_, ?_, by decide, by decide, by decide, by decide, by decide,
    by decide⟩
  · intro h
    rw [mkTransfer, if_pos h]
  · intro h1 h2 h3
    rw [mkTransfer, if_neg (by simp [h1, h2]), if_pos h3]
  · intro h1 h2 h3 h4
    rw [mkTransfer, if_neg (by simp [h1, h2]), if_neg (not_not_intro h3), if_pos h4]
  · intro h1 h2 h3 h4 h5
    rw [mkTransfer, if_neg (by simp [h1, h2]), if_neg (not_not_intro h3), if_neg h4, if_pos h5]
  · intro h1 h2 h3 h4 h5 h6
    rw [mkTransfer, if_neg (by simp [h1, h2]), if_neg (not_not_intro h3), if_neg h4, if_neg h5,
      if_pos h6]
  · intro h1 h2 h3 h4 h5 h6
    rw [mkTransfer, if_neg (by simp [h1, h2]), if_neg (not_not_intro h3), if_neg h4, if_neg h5,
      if_neg h6]

/-- C6 witness: a length mismatch on clean 1-D data raises the shape error;
a NaN on equal-length data raises the NaN error even when an infinity is
also present; clean data reaches the analysis. -/
theorem C6_validation_order_witness :
    mkTransfer (NDArr.mk1 [FV.num 1]) (NDArr.mk1 [FV.num 1, FV.num 2]) "N" =
      Except.error VErr.shapeError ∧
    mkTransfer (NDArr.mk1 [FV.nan, FV.inf]) (NDArr.mk1 [FV.num 1, FV.num 2]) "N" =
      Except.error VErr.nanValueError ∧
    mkTransfer (NDArr.mk1 [FV.num 0, FV.num 1]) (NDArr.mk1 [FV.num 1, FV.num 2]) "N" =
      Except.ok (analyze [(0 : ℚ), 1] [(1 : ℚ), 2] "N") := by
  have h1 := (C6_validation_order (NDArr.mk1 [FV.num 1]) (NDArr.mk1 [FV.num 1, FV.num 2])
    "N").2.1 (by decide) (by decide) (by decide)
  have h2 := (C6_validation_order (NDArr.mk1 [FV.nan, FV.inf])
    (NDArr.mk1 [FV.num 1, FV.num 2]) "N").2.2.2.1 (by decide) (by decide) (by decide)
    (by decide) (by decide)
  have h3 := (C6_validation_order (NDArr.mk1 [FV.num 0, FV.num 1])
    (NDArr.mk1 [FV.num 1, FV.num 2]) "N").2.2.2.2.2.1 (by decide) (by decide) (by decide)
    (by decide) (by decide) (by decide)
  exact ⟨h1, h2, h3⟩

/-- The floored log of a zero current sample is the real number
`log10(1e-12) = -12`: finite, neither `-inf` nor NaN. -/
theorem log_clip_abs_zero : log_clip_abs 0 = -12 := by
  unfold log_clip_abs
  rw [abs_zero, max_eq_right (le_of_lt eps_pos)]
  have hcast : ((eps : ℚ) : ℝ) = (10 : ℝ) ^ (-12 : ℤ) := by
    rw [eps]
    push_cast
    rw [zpow_neg]
    norm_num
  rw [hcast, Real.logb, Real.log_zpow]
  rw [mul_div_assoc, div_self (ne_of_gt (Real.log_pos (by norm_num)))]
  norm_num

/-- On an all-zero current leg the log-magnitude list is constant, its
stabilized derivative is identically zero, and the first-occurrence
`argmax`/`argmin` both select index 0 — for either device polarity. -/
theorem vonIdx_of_all_zero (I Vg : List ℚ) (dt : String) (hz : ∀ q ∈ I, q = 0) :
    vonIdx I Vg dt = 0 := by
  have hlog : ∀ r ∈ I.map log_clip_abs, r = log_clip_abs 0 := by
    intro r hr
    rcases List.mem_map.mp hr with ⟨q, hq, hrq⟩
    rw [← hrq, hz q hq]
  have hconst := safe_diff_const (I.map log_clip_abs) (Vg.map fun q => (q : ℝ))
    (log_clip_abs 0) hlog
  have hunfold : vonIdx I Vg dt =
      if dt.toUpper = "N" then
        argmax (safe_diff (I.map log_clip_abs) (Vg.map fun q => (q : ℝ)))
      else argmin (safe_diff (I.map log_clip_abs) (Vg.map fun q => (q : ℝ))) := rfl
  rw [hunfold, hconst]
  split
  · exact argmax_const fun a ha => List.eq_of_mem_replicate ha
  · exact argmin_const fun a ha => List.eq_of_mem_replicate ha

/-- C4: for each of raw, forward and reverse, Von is computed by flooring
`|I|` at `1e-12`, taking log10, differentiating against the corresponding Vg
leg with `safe_diff`, selecting the argmax of the log-slope for an N device
(argmin for P), and returning the leg's Vg value at that index; an all-zero
current sequence is processed against `log10(1e-12) = -12` (a finite real)
and yields a Von for all three sequences without failing. -/
theorem C4_von_log_slope (xs ys : List ℚ) (dt : String) (hne : xs ≠ [])
    (hlen : ys.length = xs.length) (hz : ∀ q ∈ ys, q = 0) :
    (∀ Ileg Vleg : List ℚ,
      vonIdx Ileg Vleg dt =
        if dt.toUpper = "N" then
          argmax (safe_diff (Ileg.map log_clip_abs) (Vleg.map fun q => (q : ℝ)))
        else argmin (safe_diff (Ileg.map log_clip_abs) (Vleg.map fun q => (q : ℝ)))) ∧
    (∀ q : ℚ, log_clip_abs q = Real.logb 10 ((max |q| eps : ℚ) : ℝ)) ∧
    (analyze xs ys dt).Von.raw = xs.getD (vonIdx ys xs dt) 0 ∧
    ys.map log_clip_abs = List.replicate ys.length (-12 : ℝ) ∧
    (analyze xs ys dt).Von.raw = xs.getD 0 0 ∧
    (analyze xs ys dt).Von.forward = some (xs.getD 0 0) ∧
    (analyze xs ys dt).Von.reverse = some (xs.getD (argmax xs) 0) := by
  have hk : argmax xs < xs.length := argmax_lt_length hne
  have hlenpos : 0 < xs.length := by omega
  refine ⟨fun _ _ => rfl, fun _ => rfl, rfl, ?_, ?_, ?_, ?_⟩
  · rw [List.eq_replicate_iff]
    refine ⟨List.length_map _ _, ?_⟩
    intro b hb
    rcases List.mem_map.mp hb with ⟨q, hq, hbq⟩
    rw [← hbq, hz q hq, log_clip_abs_zero]
  · show xs.getD (vonIdx ys xs dt) 0 = xs.getD 0 0
    rw [vonIdx_of_all_zero ys xs dt hz]
  · show (if (xs.take (argmax xs + 1)).length > 0 then
        some ((xs.take (argmax xs + 1)).getD
          (vonIdx (ys.take (argmax xs + 1)) (xs.take (argmax xs + 1)) dt) 0)
      else none) = some (xs.getD 0 0)
    rw [if_pos (by rw [List.length_take]; omega)]
    rw [vonIdx_of_all_zero _ _ _ fun q hq => hz q (List.take_subset _ _ hq)]
    rw [List.getD_eq_getElem?_getD, List.getD_eq_getElem?_getD, List.getElem?_take]
    rw [if_pos (by omega : (0 : ℕ) < argmax xs + 1)]
  · show (if (xs.drop (argmax xs)).length > 0 then
        some ((xs.drop (argmax xs)).getD
          (vonIdx (ys.drop (argmax xs)) (xs.drop (argmax xs)) dt) 0)
      else none) = some (xs.getD (argmax xs) 0)
    rw [if_pos (by rw [List.length_drop]; omega)]
    rw [vonIdx_of_all_zero _ _ _ fun q hq => hz q (List.drop_subset _ _ hq)]
    rw [List.getD_eq_getElem?_getD, List.getD_eq_getElem?_getD, List.getElem?_drop]
    simp

/-- C4 witness: `Vg = [0,1]`, `I = [0,0]`: the log list is `[-12,-12]`, and
all three Von values are produced (raw and forward at `Vg[0] = 0`, reverse at
the turning sample `Vg[1] = 1`). -/
theorem C4_von_log_slope_witness :
    ([(0 : ℚ), 0]).map log_clip_abs = List.replicate 2 (-12 : ℝ) ∧
    (analyze [(0 : ℚ), 1] [(0 : ℚ), 0] "N").Von.raw = ([(0 : ℚ), 1]).getD 0 0 ∧
    (analyze [(0 : ℚ), 1] [(0 : ℚ), 0] "N").Von.forward = some (([(0 : ℚ), 1]).getD 0 0) ∧
    (analyze [(0 : ℚ), 1] [(0 : ℚ), 0] "N").Von.reverse =
      some (([(0 : ℚ), 1]).getD (argmax [(0 : ℚ), 1]) 0) := by
  have h := C4_von_log_slope [(0 : ℚ), 1] [(0 : ℚ), 0] "N" (by decide) (by decide)
    (by decide)
  exact ⟨h.2.2.2.1, h.2.2.2.2.1, h.2.2.2.2.2.1, h.2.2.2.2.2.2⟩

end OECT
